import Mathlib

/-!
Verification development for the OCR_Plus page-by-page extraction pipeline.

Shallow embedding of `page_by_page_extractor.py` (JSON value model, deep merge,
aggregation, deduplication, JSON repair, per-page response classification) and
of the page-numbering behaviour of `document_processor.py`.

Modelling conventions:
* Python JSON values are embedded as the tagged union `Value`; JSON numbers are
  modelled as `Int` (floats are outside the model, so the embedded parser
  rejects fractional/exponent syntax that CPython `json.loads` would accept).
* Python dicts are insertion-ordered association lists (`Obj`); `setKey`
  mirrors CPython dict assignment (update in place, else append).
* Python exceptions that escape a function are modelled with `Except Unit`;
  exceptions that the source catches and converts to a fallback value are
  folded into the returned value directly.
* `re` whitespace `\s` is modelled as the ASCII whitespace characters.
-/

namespace OCRPlus

/-- The `{` character (written via its code point). -/
def lbrace : Char := Char.ofNat 123

/-- The `}` character (written via its code point). -/
def rbrace : Char := Char.ofNat 125

/-- Tagged union of JSON values produced by `json.loads` in the source:
strings, (integer) numbers, booleans, null, objects, arrays. -/
inductive Value where
  | str (s : String)
  | int (n : Int)
  | bool (b : Bool)
  | null
  | obj (fields : List (String × Value))
  | arr (elems : List Value)
deriving Repr

/-- A Python dict with string keys, as an insertion-ordered association list. -/
abbrev Obj := List (String × Value)

/-- Python truthiness (`if data:`) of an embedded JSON value. -/
def truthy : Value → Bool
  | .str s => !s.isEmpty
  | .int n => n != 0
  | .bool b => b
  | .null => false
  | .obj d => !d.isEmpty
  | .arr l => !l.isEmpty

/-- `True` exactly on scalars (not dict, not list) - the values that take the
`else` branch of the section loop in `_aggregate_page_results`. -/
def isScalar : Value → Bool
  | .obj _ => false
  | .arr _ => false
  | _ => true

/-- `True` exactly on arrays. -/
def isArr : Value → Bool
  | .arr _ => true
  | _ => false

/-- First value stored under key `k` (CPython dict lookup). -/
def lookupV : Obj → String → Option Value
  | [], _ => none
  | (k', v) :: rest, k => if k' = k then some v else lookupV rest k

/-- CPython dict assignment `d[k] = v`: update in place if the key exists,
otherwise append at the end. -/
def setKey : Obj → String → Value → Obj
  | [], k, v => [(k, v)]
  | (k', v') :: rest, k, v =>
    if k' = k then (k, v) :: rest else (k', v') :: setKey rest k v

/-! ### `json.dumps(item, sort_keys=True)` (used by `_deduplicate_list`) -/

/-- Hex digit (lowercase), as produced by Python `json.dumps` escapes. -/
def hexDigit (n : Nat) : Char :=
  if n < 10 then Char.ofNat (48 + n) else Char.ofNat (87 + n)

/-- `\uXXXX` escape for a code unit below `0x10000`. -/
def uEscape (n : Nat) : String :=
  String.mk ['\\', 'u', hexDigit (n / 4096 % 16), hexDigit (n / 256 % 16),
    hexDigit (n / 16 % 16), hexDigit (n % 16)]

/-- Escape one character the way CPython `json.dumps` (default
`ensure_ascii=True`) does: printable ASCII passes through, `"` and `\` and
the usual control shorthands are backslash-escaped, everything else becomes
`\uXXXX` (astral code points as a surrogate pair). -/
def escapeChar (c : Char) : String :=
  if c = '"' then "\\\""
  else if c = '\\' then "\\\\"
  else if c = '\n' then "\\n"
  else if c = '\t' then "\\t"
  else if c = '\r' then "\\r"
  else if c = Char.ofNat 8 then "\\b"
  else if c = Char.ofNat 12 then "\\f"
  else if c.toNat < 32 || c.toNat > 126 then
    if c.toNat < 65536 then uEscape c.toNat
    else uEscape (55296 + (c.toNat - 65536) / 1024) ++ uEscape (56320 + (c.toNat - 65536) % 1024)
  else String.singleton c

/-- Serialize a string literal with quotes and escapes. -/
def dumpString (s : String) : String :=
  "\"" ++ String.join (s.data.map escapeChar) ++ "\""

/-- Join serialized items with the default `json.dumps` separator `", "`. -/
def joinComma : List String → String
  | [] => ""
  | [x] => x
  | x :: rest => x ++ ", " ++ joinComma rest

/-- Insert a rendered member into a key-sorted list (stable insertion by
string order, modelling Python `sorted`). -/
def insertByKey (p : String × String) : List (String × String) → List (String × String)
  | [] => [p]
  | q :: rest => if p.1 < q.1 then p :: q :: rest else q :: insertByKey p rest

/-- Stable insertion sort by key. -/
def sortByKey : List (String × String) → List (String × String)
  | [] => []
  | p :: rest => insertByKey p (sortByKey rest)

mutual
/-- `json.dumps(v, sort_keys=True)`: canonical serialization with keys sorted
at every object level. -/
def dumpVal : Value → String
  | .str s => dumpString s
  | .int n => toString n
  | .bool b => cond b "true" "false"
  | .null => "null"
  | .arr l => "[" ++ joinComma (dumpElems l) ++ "]"
  | .obj fields =>
      String.singleton lbrace ++ joinComma ((sortByKey (dumpFields fields)).map Prod.snd)
        ++ String.singleton rbrace

/-- Serialize each array element. -/
def dumpElems : List Value → List String
  | [] => []
  | v :: rest => dumpVal v :: dumpElems rest

/-- Render each object member as `(key, "key": value)`. -/
def dumpFields : List (String × Value) → List (String × String)
  | [] => []
  | (k, v) :: rest => (k, dumpString k ++ ": " ++ dumpVal v) :: dumpFields rest
end

/-! ### `_deduplicate_list` -/

/-- Python `==` between the values that can sit in the dedup `seen` set
(strings from `json.dumps`, plus hashable scalars).  Mirrors the CPython
cross-type equality `True == 1`, `False == 0`; containers never reach the
`seen` set (dicts are replaced by their dump string, lists raise), so the
container cases are never exercised by `deduplicateList`. -/
def pyEq : Value → Value → Bool
  | .str a, .str b => a == b
  | .int a, .int b => a == b
  | .bool a, .bool b => a == b
  | .null, .null => true
  | .bool b, .int n => (b && n == 1) || (!b && n == 0)
  | .int n, .bool b => (b && n == 1) || (!b && n == 0)
  | _, _ => false

/-- The key a list item contributes to the `seen` set: dicts contribute their
canonical `json.dumps` string, everything else contributes itself. -/
def seenKey : Value → Value
  | .obj d => .str (dumpVal (.obj d))
  | v => v

/-- Membership in the `seen` set, by Python equality. -/
def memSeen (seen : List Value) (k : Value) : Bool :=
  seen.any fun s => pyEq s k

/-- Loop of `_deduplicate_list`: `seen` accumulates keys (the dump string
for dicts, the item itself otherwise); a list item is unhashable in CPython,
so hitting one raises `TypeError` (modelled as `.error ()`), which the
callers of `_deduplicate_list` do not catch. -/
def dedupAux (seen : List Value) : List Value → Except Unit (List Value)
  | [] => .ok []
  | item :: rest =>
    if isArr item then .error ()
    else if memSeen seen (seenKey item) then dedupAux seen rest
    else Except.map (fun l => item :: l) (dedupAux (seenKey item :: seen) rest)

/-- `_deduplicate_list`: remove duplicates preserving first-occurrence order. -/
def deduplicateList (items : List Value) : Except Unit (List Value) :=
  dedupAux [] items

/-! ### `_deep_merge` -/

mutual
/-- Body of the `for key, value in source.items()` loop of `_deep_merge`,
for one source entry.  The four special cases mirror lines 238-249 of the
source; the final case is the unconditional `target[key] = value` overwrite
(line 252). -/
def deepMergeEntry (target : Obj) (k : String) (v : Value) : Obj :=
  match lookupV target k, v with
  | some (.obj td), .obj sd => setKey target k (.obj (deepMerge td sd))
  | some (.arr tl), .arr sl => setKey target k (.arr (tl ++ sl))
  | some (.arr tl), .obj sd => setKey target k (.arr (tl ++ [.obj sd]))
  | some (.obj _), .arr _ => target
  | _, _ => setKey target k v
termination_by sizeOf v

/-- `_deep_merge(target, source)` for dict `target` and dict `source`:
fold the per-entry rule over the source entries in order.  (With a dict
target no exception ever escapes: the per-key `except` fallback assignment
always succeeds.) -/
def deepMerge (target : Obj) : (src : Obj) → Obj
  | [] => target
  | (k, v) :: rest => deepMerge (deepMergeEntry target k v) rest
termination_by src => sizeOf src
end

/-! ### `_aggregate_page_results` -/

/-- One page result as consumed by `_aggregate_page_results`
(`success` flag, `extracted_data` value, heuristic confidence). -/
structure PageResult where
  success : Bool
  data : Value
  confidence : Rat
deriving Repr

/-- Body of the `for section, data in page_data.items()` loop.
* dict data: initialise to `{}` when absent then `_deep_merge`; when the
  existing value is not a dict, `_deep_merge` raises on its first key (or
  does nothing for an empty source), the `except` at line 226 catches, and
  the section is left unchanged;
* list data: initialise to `[]` when absent then `extend`; a non-list
  existing value has no `.extend`, the raised `AttributeError` is caught,
  and the section is left unchanged;
* scalar data: written only when truthy and the slot is absent or falsy
  (line 224). -/
def mergeSection (acc : Obj) (sec : String) (data : Value) : Obj :=
  match data with
  | .obj d =>
      match lookupV acc sec with
      | none => setKey acc sec (.obj (deepMerge [] d))
      | some (.obj t) => setKey acc sec (.obj (deepMerge t d))
      | some _ => acc
  | .arr l =>
      match lookupV acc sec with
      | none => setKey acc sec (.arr l)
      | some (.arr l0) => setKey acc sec (.arr (l0 ++ l))
      | some _ => acc
  | v =>
      if truthy v && (match lookupV acc sec with
                      | none => true
                      | some cur => !truthy cur) then
        setKey acc sec v
      else acc

/-- Merge every section of one page's data object, in order. -/
def mergePageData (acc : Obj) : Obj → Obj
  | [] => acc
  | (s, d) :: rest => mergePageData (mergeSection acc s d) rest

/-- The page loop of `_aggregate_page_results`: skip non-successful pages;
a successful page whose `extracted_data` is not a dict makes
`page_data.items()` raise `AttributeError` outside any local handler. -/
def aggregateLoop (acc : Obj) : List PageResult → Except Unit Obj
  | [] => .ok acc
  | pr :: rest =>
    if pr.success then
      match pr.data with
      | .obj d => aggregateLoop (mergePageData acc d) rest
      | _ => .error ()
    else aggregateLoop acc rest

/-- `_clean_dict`: drop falsy values, recurse into dicts, deduplicate lists
(the deduplication may raise). -/
def cleanDict : Obj → Except Unit Obj
  | [] => .ok []
  | (k, v) :: rest =>
    if truthy v then
      match v with
      | .obj d =>
          match cleanDict d with
          | .ok d' =>
              match cleanDict rest with
              | .ok r => .ok ((k, .obj d') :: r)
              | .error e => .error e
          | .error e => .error e
      | .arr l =>
          match deduplicateList l with
          | .ok l' =>
              match cleanDict rest with
              | .ok r => .ok ((k, .arr l') :: r)
              | .error e => .error e
          | .error e => .error e
      | x =>
          match cleanDict rest with
          | .ok r => .ok ((k, x) :: r)
          | .error e => .error e
    else cleanDict rest
termination_by d => sizeOf d

/-- `_clean_aggregated_data`: per top-level section, deduplicate lists and
clean dicts recursively; scalars (even falsy ones) pass through. -/
def cleanAggregatedData : Obj → Except Unit Obj
  | [] => .ok []
  | (k, v) :: rest =>
    match v with
    | .arr l =>
        match deduplicateList l with
        | .ok l' =>
            match cleanAggregatedData rest with
            | .ok r => .ok ((k, .arr l') :: r)
            | .error e => .error e
        | .error e => .error e
    | .obj d =>
        match cleanDict d with
        | .ok d' =>
            match cleanAggregatedData rest with
            | .ok r => .ok ((k, .obj d') :: r)
            | .error e => .error e
        | .error e => .error e
    | x =>
        match cleanAggregatedData rest with
        | .ok r => .ok ((k, x) :: r)
        | .error e => .error e

/-- `_aggregate_page_results`: fold all pages into the accumulator, then run
the cleanup/deduplication pass. -/
def aggregatePageResults (prs : List PageResult) : Except Unit Obj :=
  match aggregateLoop [] prs with
  | .ok agg => cleanAggregatedData agg
  | .error e => .error e

/-! ### `json.loads` (strict CPython JSON parsing, integer numbers only) -/

/-- JSON whitespace accepted by `json.loads` between tokens. -/
def isJsonWs (c : Char) : Bool :=
  c = ' ' || c = '\t' || c = '\n' || c = '\r'

/-- Skip JSON whitespace. -/
def skipWs : List Char → List Char
  | [] => []
  | c :: rest => if isJsonWs c then skipWs rest else c :: rest

/-- Decimal digit test. -/
def isDigitCh (c : Char) : Bool := 48 ≤ c.toNat && c.toNat ≤ 57

/-- Value of a hex digit, if any. -/
def hexVal (c : Char) : Option Nat :=
  if 48 ≤ c.toNat && c.toNat ≤ 57 then some (c.toNat - 48)
  else if 97 ≤ c.toNat && c.toNat ≤ 102 then some (c.toNat - 87)
  else if 65 ≤ c.toNat && c.toNat ≤ 70 then some (c.toNat - 55)
  else none

/-- Body of a JSON string literal after the opening quote: strict mode
(raw control characters rejected), the standard escapes, `\uXXXX` with
surrogate-pair combination.  (Lone surrogates, which CPython would keep,
are not representable in `Char` and are rejected - a documented deviation.) -/
def parseStringBody : List Char → Option (List Char × List Char)
  | [] => none
  | c :: rest =>
    if c = '"' then some ([], rest)
    else if c = '\\' then
      match rest with
      | [] => none
      | e :: rest2 =>
        if e = '"' ∨ e = '\\' ∨ e = '/' then
          (parseStringBody rest2).map fun (cs, r) => (e :: cs, r)
        else if e = 'b' then
          (parseStringBody rest2).map fun (cs, r) => (Char.ofNat 8 :: cs, r)
        else if e = 'f' then
          (parseStringBody rest2).map fun (cs, r) => (Char.ofNat 12 :: cs, r)
        else if e = 'n' then
          (parseStringBody rest2).map fun (cs, r) => ('\n' :: cs, r)
        else if e = 'r' then
          (parseStringBody rest2).map fun (cs, r) => ('\r' :: cs, r)
        else if e = 't' then
          (parseStringBody rest2).map fun (cs, r) => ('\t' :: cs, r)
        else if e = 'u' then
          match rest2 with
          | h1 :: h2 :: h3 :: h4 :: more =>
            match hexVal h1, hexVal h2, hexVal h3, hexVal h4 with
            | some a, some b, some c', some d =>
              let code := a * 4096 + b * 256 + c' * 16 + d
              if 55296 ≤ code ∧ code ≤ 56319 then
                match more with
                | '\\' :: 'u' :: k1 :: k2 :: k3 :: k4 :: more2 =>
                  match hexVal k1, hexVal k2, hexVal k3, hexVal k4 with
                  | some a2, some b2, some c2, some d2 =>
                    let code2 := a2 * 4096 + b2 * 256 + c2 * 16 + d2
                    if 56320 ≤ code2 ∧ code2 ≤ 57343 then
                      (parseStringBody more2).map fun (cs, r) =>
                        (Char.ofNat (65536 + (code - 55296) * 1024 + (code2 - 56320)) :: cs, r)
                    else none
                  | _, _, _, _ => none
                | _ => none
              else if 56320 ≤ code ∧ code ≤ 57343 then none
              else (parseStringBody more).map fun (cs, r) => (Char.ofNat code :: cs, r)
            | _, _, _, _ => none
          | _ => none
        else none
    else if c.toNat < 32 then none
    else (parseStringBody rest).map fun (cs, r) => (c :: cs, r)

/-- Digits to a natural number. -/
def digitsToNat (ds : List Char) : Nat :=
  ds.foldl (fun acc c => acc * 10 + (c.toNat - 48)) 0

/-- JSON integer literal (strict grammar: optional minus, no leading zeros).
Fractional or exponent continuations are rejected because numbers are
modelled as `Int`. -/
def parseNumber (cs : List Char) : Option (Value × List Char) :=
  let (neg, cs1) := match cs with
    | '-' :: rest => (true, rest)
    | _ => (false, cs)
  let ds := cs1.takeWhile isDigitCh
  let rest := cs1.dropWhile isDigitCh
  if ds.isEmpty then none
  else if ds.length > 1 ∧ ds.headD '0' = '0' then none
  else
    match rest with
    | c :: _ => if c = '.' ∨ c = 'e' ∨ c = 'E' then none
        else some (.int (if neg then -(digitsToNat ds : Int) else (digitsToNat ds : Int)), rest)
    | [] => some (.int (if neg then -(digitsToNat ds : Int) else (digitsToNat ds : Int)), [])

mutual
/-- One JSON value at the head of the input (fuel-indexed recursive descent;
the fuel used by `jsonParse` is always sufficient because every recursive
call consumes at least one character first). -/
def parseVal : Nat → List Char → Option (Value × List Char)
  | 0, _ => none
  | _ + 1, [] => none
  | fuel + 1, c :: rest =>
    if c = lbrace then parseObjBody fuel (skipWs rest) []
    else if c = '[' then parseArrBody fuel (skipWs rest)
    else if c = '"' then
      (parseStringBody rest).map fun (cs, r) => (.str (String.mk cs), r)
    else if c = 't' then
      match rest with
      | 'r' :: 'u' :: 'e' :: r => some (.bool true, r)
      | _ => none
    else if c = 'f' then
      match rest with
      | 'a' :: 'l' :: 's' :: 'e' :: r => some (.bool false, r)
      | _ => none
    else if c = 'n' then
      match rest with
      | 'u' :: 'l' :: 'l' :: r => some (.null, r)
      | _ => none
    else if c = '-' ∨ isDigitCh c then parseNumber (c :: rest)
    else none

/-- Object members after `{` (input already whitespace-skipped); `acc` holds
the members seen so far, with CPython's duplicate-key behaviour via
`setKey`. -/
def parseObjBody : Nat → List Char → Obj → Option (Value × List Char)
  | 0, _, _ => none
  | _ + 1, [], _ => none
  | fuel + 1, c :: rest, acc =>
    if c = rbrace ∧ acc.isEmpty then some (.obj [], rest)
    else if c = '"' then
      match parseStringBody rest with
      | none => none
      | some (kcs, r1) =>
        match skipWs r1 with
        | ':' :: r2 =>
          match parseVal fuel (skipWs r2) with
          | none => none
          | some (v, r3) =>
            let acc' := setKey acc (String.mk kcs) v
            match skipWs r3 with
            | c2 :: r4 =>
              if c2 = rbrace then some (.obj acc', r4)
              else if c2 = ',' then
                match skipWs r4 with
                | '"' :: r5 => parseObjBody fuel ('"' :: r5) acc'
                | _ => none
              else none
            | [] => none
        | _ => none
    else none

/-- Array elements after `[` (input already whitespace-skipped). -/
def parseArrBody : Nat → List Char → Option (Value × List Char)
  | 0, _ => none
  | _ + 1, [] => none
  | fuel + 1, c :: rest =>
    if c = ']' then some (.arr [], rest)
    else
      match parseArrLoop fuel (c :: rest) with
      | none => none
      | some (l, r) => some (.arr l, r)

/-- Non-empty array element list. -/
def parseArrLoop : Nat → List Char → Option (List Value × List Char)
  | 0, _ => none
  | fuel + 1, cs =>
    match parseVal fuel cs with
    | none => none
    | some (v, r1) =>
      match skipWs r1 with
      | ']' :: r2 => some ([v], r2)
      | ',' :: r2 =>
        match parseArrLoop fuel (skipWs r2) with
        | none => none
        | some (l, r3) => some (v :: l, r3)
      | _ => none
end

/-- `json.loads`: parse a complete JSON document (leading and trailing
whitespace allowed, nothing else may remain). -/
def jsonParse (s : String) : Option Value :=
  match parseVal (s.data.length + 1) (skipWs s.data) with
  | some (v, rest) => if (skipWs rest).isEmpty then some v else none
  | none => none

/-! ### `_fix_incomplete_json` (the response repairer) -/

/-- Does the input start with optional regex whitespace followed by `}` or
`]`?  This is exactly when `re.sub(r',(\s*[}\]])', r'\1', ...)` matches at a
comma: the pattern's `\s*` can only succeed through the maximal whitespace
run, since closing characters are not whitespace. -/
def followedByClose : List Char → Bool
  | [] => false
  | c :: rest =>
    if c = rbrace ∨ c = ']' then true
    else if c = ' ' ∨ c = '\t' ∨ c = '\n' ∨ c = '\r' ∨ c = Char.ofNat 11 ∨ c = Char.ofNat 12 then
      followedByClose rest
    else false

/-- The comma-stripping substitution: drop every comma that is followed by
optional whitespace and a closing brace or bracket, keeping everything else.
(The regex replacement keeps the matched whitespace and closer, and matched
spans contain no further commas, so per-comma dropping is equivalent to the
left-to-right non-overlapping `re.sub`.) -/
def stripTrailingCommas : List Char → List Char
  | [] => []
  | c :: rest =>
    if c = ',' ∧ followedByClose rest then stripTrailingCommas rest
    else c :: stripTrailingCommas rest

/-- `_fix_incomplete_json`: strip trailing commas, count brace and bracket
characters over the whole (stripped) text, and if anything is missing append
the closing brackets first and the closing braces second.  The Python
function's own `except` arm is unreachable (nothing in the body raises), so
the function is total and never returns `None` here. -/
def fixIncompleteJson (s : String) : String :=
  let cs := stripTrailingCommas s.data
  let missingBraces : Int := (cs.count lbrace : Int) - (cs.count rbrace : Int)
  let missingBrackets : Int := (cs.count '[' : Int) - (cs.count ']' : Int)
  if missingBraces > 0 ∨ missingBrackets > 0 then
    String.mk (cs ++ List.replicate missingBrackets.toNat ']'
      ++ List.replicate missingBraces.toNat rbrace)
  else String.mk cs

/-! ### `_extract_from_page` and `extract_page_by_page` -/

/-- The raw outcome of one extraction-service call: either the text response,
or an exception escaping the call (transport failure). -/
inductive ServiceResponse where
  | ok (raw : String)
  | exn (msg : String)

/-- `_extract_from_page` response classification: parse, else repair and
re-parse, else wrap the raw text; an escaping service exception becomes a
failed result with empty data and confidence 0. -/
def extractFromPage : ServiceResponse → PageResult
  | .exn _ => ⟨false, .obj [], 0⟩
  | .ok raw =>
    match jsonParse raw with
    | some v => ⟨true, v, 1⟩
    | none =>
      let fixed := fixIncompleteJson raw
      if fixed.isEmpty then ⟨true, .obj [("raw_extraction", .str raw)], 8/10⟩
      else
        match jsonParse fixed with
        | some v => ⟨true, v, 9/10⟩
        | none => ⟨true, .obj [("raw_extraction", .str raw)], 8/10⟩

/-- Document-level outcome of `extract_page_by_page`: either success with
the aggregated data, or the top-level `except` at line 95 turning any
escaped exception into a `success: False` record with no aggregated data. -/
structure ExtractOutcome where
  success : Bool
  aggregated : Option Obj
deriving Repr

/-- The per-page loop plus aggregation of `extract_page_by_page`, as a
function of the sequence of raw service responses for the document's pages
(document normalization and the zero-page fallback path are outside this
model). -/
def extractPageByPage (responses : List ServiceResponse) : ExtractOutcome :=
  match aggregatePageResults (responses.map extractFromPage) with
  | .ok agg => ⟨true, some agg⟩
  | .error _ => ⟨false, none⟩

/-! ### Page numbering (`document_processor.py`) -/

/-- Page numbers produced by the `<img>` scan pass of
`_extract_base64_images`: each successfully decoded match is numbered
`i + 1` by its `enumerate` index `i`, and failed matches are skipped
(`continue`) without renumbering. -/
def imgScanPages : Nat → List Bool → List Nat
  | _, [] => []
  | i, ok :: rest =>
    if ok then (i + 1) :: imgScanPages (i + 1) rest
    else imgScanPages (i + 1) rest

/-- Page numbers after the CSS `background-image` scan pass: each
successfully decoded match is numbered `len(images) + 1` over the
accumulated list. -/
def cssScanPages (acc : List Nat) : List Bool → List Nat
  | [] => acc
  | ok :: rest =>
    if ok then cssScanPages (acc ++ [acc.length + 1]) rest
    else cssScanPages acc rest

/-- Page numbers of the `NormalizedDocument` built by the HTML adapter, as a
function of which matches of each scan pass decode successfully. -/
def htmlPageNumbers (imgs css : List Bool) : List Nat :=
  cssScanPages (imgScanPages 0 imgs) css

/-- Page numbers produced by `_process_pdf` (and by
`_create_fallback_images`): `page_num + 1` for `page_num in range(n)`. -/
def pdfPageNumbers (n : Nat) : List Nat :=
  (List.range n).map (· + 1)

/-- Page numbers produced by `_process_image`: the single page `1`. -/
def imagePageNumbers : List Nat := [1]

/-! ### Spec-side definition for the aggregation refinement claim -/

/-- The value a page's data object holds for a given top-level section. -/
def pageSection (pr : PageResult) (sec : String) : Option Value :=
  match pr.data with
  | .obj d => lookupV d sec
  | _ => none

/-- Modelled from the spec: "scalar sections keep the first non-empty value
seen, in page order" - the first truthy value any successful page reports
for the section. -/
def specFirstNonEmptyScalar : List PageResult → String → Option Value
  | [], _ => none
  | pr :: rest, sec =>
    match (if pr.success then pageSection pr sec else none) with
    | some v => if truthy v then some v else specFirstNonEmptyScalar rest sec
    | none => specFirstNonEmptyScalar rest sec

/-- The four special cases of the `_deep_merge` elif chain; the claim's
"otherwise" case is exactly when this is `false`. -/
def specialPair : Value → Value → Bool
  | .obj _, .obj _ => true
  | .arr _, .arr _ => true
  | .arr _, .obj _ => true
  | .obj _, .arr _ => true
  | _, _ => false

/-! ## Helper lemmas -/

theorem lookupV_setKey_self (t : Obj) (k : String) (v : Value) :
    lookupV (setKey t k v) k = some v := by
  induction t with
  | nil => simp [setKey, lookupV]
  | cons p rest ih =>
    obtain ⟨k', v'⟩ := p
    by_cases h : k' = k <;> simp [setKey, lookupV, h, ih]

theorem lookupV_setKey_ne (t : Obj) {k' k : String} (v : Value) (h : k' ≠ k) :
    lookupV (setKey t k' v) k = lookupV t k := by
  induction t with
  | nil => simp [setKey, lookupV, h]
  | cons p rest ih =>
    obtain ⟨k0, v0⟩ := p
    by_cases h0 : k0 = k'
    · subst h0
      simp [setKey, lookupV, h]
    · by_cases h1 : k0 = k <;> simp [setKey, lookupV, h0, h1, ih, Ne.symm h]

theorem lookupV_eq_none_of_not_mem (d : Obj) (sec : String)
    (h : sec ∉ d.map Prod.fst) : lookupV d sec = none := by
  induction d with
  | nil => rfl
  | cons p rest ih =>
    obtain ⟨k, v⟩ := p
    simp only [List.map_cons, List.mem_cons, not_or] at h
    simp [lookupV, Ne.symm h.1, ih h.2]

theorem lookupV_mem (d : Obj) (sec : String) (v : Value)
    (h : lookupV d sec = some v) : (sec, v) ∈ d := by
  induction d with
  | nil => simp [lookupV] at h
  | cons p rest ih =>
    obtain ⟨k, v'⟩ := p
    by_cases hk : k = sec
    · subst hk
      simp [lookupV] at h
      simp [h]
    · simp [lookupV, hk] at h
      exact List.mem_cons_of_mem _ (ih h)

theorem mergeSection_lookup_ne (acc : Obj) {s' sec : String} (d : Value)
    (h : s' ≠ sec) : lookupV (mergeSection acc s' d) sec = lookupV acc sec := by
  cases d with
  | obj o =>
    simp only [mergeSection]
    cases hl : lookupV acc s' with
    | none => exact lookupV_setKey_ne acc _ h
    | some cur => cases cur <;> simp [lookupV_setKey_ne acc _ h]
  | arr l =>
    simp only [mergeSection]
    cases hl : lookupV acc s' with
    | none => exact lookupV_setKey_ne acc _ h
    | some cur => cases cur <;> simp [lookupV_setKey_ne acc _ h]
  | str s => simp only [mergeSection]; split <;> simp [lookupV_setKey_ne acc _ h]
  | int n => simp only [mergeSection]; split <;> simp [lookupV_setKey_ne acc _ h]
  | bool b => simp only [mergeSection]; split <;> simp [lookupV_setKey_ne acc _ h]
  | null => simp only [mergeSection]; split <;> simp [lookupV_setKey_ne acc _ h]

theorem mergeSection_scalar_truthy_existing (acc : Obj) (sec : String) (v w : Value)
    (hv : isScalar v = true) (hw : lookupV acc sec = some w) (ht : truthy w = true) :
    mergeSection acc sec v = acc := by
  cases v <;> simp_all [mergeSection, isScalar]

theorem mergePageData_keeps_truthy (d : Obj) (acc : Obj) (sec : String) (w : Value)
    (hw : lookupV acc sec = some w) (ht : truthy w = true)
    (hsc : ∀ v, (sec, v) ∈ d → isScalar v = true) :
    lookupV (mergePageData acc d) sec = some w := by
  induction d generalizing acc with
  | nil => simpa [mergePageData] using hw
  | cons p rest ih =>
    obtain ⟨s, v⟩ := p
    simp only [mergePageData]
    by_cases hs : s = sec
    · subst hs
      rw [mergeSection_scalar_truthy_existing acc s v w (hsc v (by simp)) hw ht]
      exact ih acc hw fun x hx => hsc x (List.mem_cons_of_mem _ hx)
    · apply ih
      · rw [mergeSection_lookup_ne acc v hs]
        exact hw
      · exact fun x hx => hsc x (List.mem_cons_of_mem _ hx)

theorem mergePageData_from_none (d : Obj) (acc : Obj) (sec : String)
    (hnone : lookupV acc sec = none)
    (hsc : ∀ v, (sec, v) ∈ d → isScalar v = true)
    (hnd : (d.map Prod.fst).Nodup) :
    lookupV (mergePageData acc d) sec =
      (match lookupV d sec with
       | some v => if truthy v then some v else none
       | none => none) := by
  induction d generalizing acc with
  | nil => simpa [mergePageData, lookupV] using hnone
  | cons p rest ih =>
    obtain ⟨s, v⟩ := p
    simp only [mergePageData]
    by_cases hs : s = sec
    · subst hs
      have hv : isScalar v = true := hsc v (by simp)
      have hrest : s ∉ rest.map Prod.fst := by
        simp only [List.map_cons, List.nodup_cons] at hnd
        exact hnd.1
      have hscr : ∀ x, (s, x) ∈ rest → isScalar x = true := by
        intro x hx
        exact absurd (List.mem_map_of_mem Prod.fst hx) hrest
      by_cases htv : truthy v = true
      · have hset : mergeSection acc s v = setKey acc s v := by
          cases v <;> simp_all [mergeSection, isScalar]
        rw [hset]
        rw [mergePageData_keeps_truthy rest _ s v (lookupV_setKey_self acc s v) htv hscr]
        simp [lookupV, htv]
      · have hkeep : mergeSection acc s v = acc := by
          cases v <;> simp_all [mergeSection, isScalar]
        rw [hkeep]
        have := ih acc hnone hscr (by
          simp only [List.map_cons, List.nodup_cons] at hnd
          exact hnd.2)
        rw [this, lookupV_eq_none_of_not_mem rest s hrest]
        simp [lookupV, htv]
    · have : lookupV (mergeSection acc s v) sec = none := by
        rw [mergeSection_lookup_ne acc v hs]; exact hnone
      rw [ih _ this (fun x hx => hsc x (List.mem_cons_of_mem _ hx)) (by
        simp only [List.map_cons, List.nodup_cons] at hnd
        exact hnd.2)]
      simp [lookupV, hs]

theorem aggregateLoop_sec (pages : List PageResult) (acc : Obj) (sec : String)
    (h1 : ∀ pr ∈ pages, pr.success = true)
    (h2 : ∀ pr ∈ pages, ∃ d, pr.data = .obj d ∧ (d.map Prod.fst).Nodup ∧
          ∀ x, (sec, x) ∈ d → isScalar x = true) :
    ∀ out, aggregateLoop acc pages = .ok out →
      ((∀ w, lookupV acc sec = some w → truthy w = true → lookupV out sec = some w)
       ∧ (lookupV acc sec = none →
          lookupV out sec = specFirstNonEmptyScalar pages sec)) := by
  induction pages generalizing acc with
  | nil =>
    intro out hout
    simp only [aggregateLoop] at hout
    cases hout
    exact ⟨fun w hw _ => hw, fun hn => by simp [specFirstNonEmptyScalar, hn]⟩
  | cons pr rest ih =>
    intro out hout
    have hsucc : pr.success = true := h1 pr (by simp)
    obtain ⟨d, hd, hnd, hsc⟩ := h2 pr (by simp)
    simp only [aggregateLoop, hsucc, if_true, hd] at hout
    have ihr := ih (mergePageData acc d)
      (fun q hq => h1 q (List.mem_cons_of_mem _ hq))
      (fun q hq => h2 q (List.mem_cons_of_mem _ hq)) out hout
    constructor
    · intro w hw ht
      exact ihr.1 w (mergePageData_keeps_truthy d acc sec w hw ht hsc) ht
    · intro hn
      have hmerge := mergePageData_from_none d acc sec hn hsc hnd
      have hpage : pageSection pr sec = lookupV d sec := by
        simp [pageSection, hd]
      simp only [specFirstNonEmptyScalar, hsucc, if_true, hpage]
      cases hld : lookupV d sec with
      | none =>
        rw [hld] at hmerge
        exact ihr.2 hmerge
      | some v =>
        rw [hld] at hmerge
        by_cases htv : truthy v = true
        · simp only [htv, if_true] at hmerge ⊢
          exact ihr.1 v hmerge htv
        · simp only [htv, if_false] at hmerge ⊢
          exact ihr.2 hmerge

theorem specFirst_scalar_truthy (pages : List PageResult) (sec : String) (v : Value)
    (h2 : ∀ pr ∈ pages, ∃ d, pr.data = .obj d ∧ (d.map Prod.fst).Nodup ∧
          ∀ x, (sec, x) ∈ d → isScalar x = true)
    (h : specFirstNonEmptyScalar pages sec = some v) :
    isScalar v = true ∧ truthy v = true := by
  induction pages with
  | nil => simp [specFirstNonEmptyScalar] at h
  | cons pr rest ih =>
    simp only [specFirstNonEmptyScalar] at h
    cases hps : (if pr.success then pageSection pr sec else none) with
    | none =>
      rw [hps] at h
      exact ih (fun q hq => h2 q (List.mem_cons_of_mem _ hq)) h
    | some x =>
      rw [hps] at h
      by_cases htx : truthy x = true
      · simp only [htx, if_true] at h
        cases h
        obtain ⟨d, hd, _, hsc⟩ := h2 pr (by simp)
        have hx : lookupV d sec = some v := by
          by_cases hsucc : pr.success
          · rw [if_pos hsucc] at hps
            simpa [pageSection, hd] using hps
          · rw [if_neg hsucc] at hps
            cases hps
        exact ⟨hsc v (lookupV_mem d sec v hx), htx⟩
      · simp only [htx, if_false] at h
        exact ih (fun q hq => h2 q (List.mem_cons_of_mem _ hq)) h

theorem cleanAggregatedData_lookup_scalar (out : Obj) (sec : String) (v : Value) :
    ∀ cl, cleanAggregatedData out = .ok cl → lookupV out sec = some v →
      isScalar v = true → lookupV cl sec = some v := by
  induction out with
  | nil => intro cl _ hl; simp [lookupV] at hl
  | cons p rest ih =>
    intro cl hc hl hs
    obtain ⟨k, x⟩ := p
    by_cases hk : k = sec
    · subst hk
      have hx : x = v := by simpa [lookupV] using hl
      subst hx
      cases x <;> simp_all [cleanAggregatedData, isScalar]
      all_goals
        (cases hr : cleanAggregatedData rest with
         | ok r => rw [hr] at hc; cases hc; simp [lookupV]
         | error e => rw [hr] at hc; cases hc)
    · have hl' : lookupV rest sec = some v := by simpa [lookupV, hk] using hl
      cases x with
      | arr l =>
        simp only [cleanAggregatedData] at hc
        cases hd : deduplicateList l with
        | ok l' =>
          rw [hd] at hc
          cases hr : cleanAggregatedData rest with
          | ok r =>
            rw [hr] at hc
            cases hc
            simp only [lookupV, hk, if_false]
            exact ih r hr hl' hs
          | error e => rw [hr] at hc; cases hc
        | error e => rw [hd] at hc; cases hc
      | obj d =>
        simp only [cleanAggregatedData] at hc
        cases hd : cleanDict d with
        | ok d' =>
          rw [hd] at hc
          cases hr : cleanAggregatedData rest with
          | ok r =>
            rw [hr] at hc
            cases hc
            simp only [lookupV, hk, if_false]
            exact ih r hr hl' hs
          | error e => rw [hr] at hc; cases hc
        | error e => rw [hd] at hc; cases hc
      | str s' =>
        simp only [cleanAggregatedData] at hc
        cases hr : cleanAggregatedData rest with
        | ok r =>
          rw [hr] at hc
          cases hc
          simp only [lookupV, hk, if_false]
          exact ih r hr hl' hs
        | error e => rw [hr] at hc; cases hc
      | int n =>
        simp only [cleanAggregatedData] at hc
        cases hr : cleanAggregatedData rest with
        | ok r =>
          rw [hr] at hc
          cases hc
          simp only [lookupV, hk, if_false]
          exact ih r hr hl' hs
        | error e => rw [hr] at hc; cases hc
      | bool b =>
        simp only [cleanAggregatedData] at hc
        cases hr : cleanAggregatedData rest with
        | ok r =>
          rw [hr] at hc
          cases hc
          simp only [lookupV, hk, if_false]
          exact ih r hr hl' hs
        | error e => rw [hr] at hc; cases hc
      | null =>
        simp only [cleanAggregatedData] at hc
        cases hr : cleanAggregatedData rest with
        | ok r =>
          rw [hr] at hc
          cases hc
          simp only [lookupV, hk, if_false]
          exact ih r hr hl' hs
        | error e => rw [hr] at hc; cases hc

/-! ## Claim theorems -/

/-- Claim C1: for every ordered sequence of successful page results merged in
page order (each page's data a JSON object whose entries for the section are
scalars), a top-level scalar section of the aggregated document equals the
first non-empty value seen for that section, in page order. -/
theorem aggregated_scalar_section_first_nonempty
    (pages : List PageResult) (sec : String) (agg : Obj) (v : Value)
    (h1 : ∀ pr ∈ pages, pr.success = true)
    (h2 : ∀ pr ∈ pages, ∃ d, pr.data = .obj d ∧ (d.map Prod.fst).Nodup ∧
          ∀ x, (sec, x) ∈ d → isScalar x = true)
    (hagg : aggregatePageResults pages = .ok agg)
    (hfirst : specFirstNonEmptyScalar pages sec = some v) :
    lookupV agg sec = some v := by
  have hv := specFirst_scalar_truthy pages sec v h2 hfirst
  unfold aggregatePageResults at hagg
  cases hloop : aggregateLoop [] pages with
  | error e => rw [hloop] at hagg; cases hagg
  | ok mid =>
    rw [hloop] at hagg
    have hmid := (aggregateLoop_sec pages [] sec h1 h2 mid hloop).2 rfl
    rw [hfirst] at hmid
    exact cleanAggregatedData_lookup_scalar mid sec v agg hagg hmid hv.1

/-- Witness for C1: the 3-page document of the spec - pages 1 and 3 report
`name = "A"`, page 2 reports `name = ""`; the aggregated `name` is `"A"`. -/
theorem aggregated_scalar_section_first_nonempty_witness :
    aggregatePageResults
      [⟨true, .obj [("name", .str "A")], 1⟩,
       ⟨true, .obj [("name", .str "")], 1⟩,
       ⟨true, .obj [("name", .str "A")], 1⟩] = .ok [("name", Value.str "A")]
    ∧ lookupV [("name", Value.str "A")] "name" = some (.str "A") := by
  refine ⟨rfl, ?_⟩
  refine aggregated_scalar_section_first_nonempty
    [⟨true, .obj [("name", .str "A")], 1⟩,
     ⟨true, .obj [("name", .str "")], 1⟩,
     ⟨true, .obj [("name", .str "A")], 1⟩] "name" [("name", Value.str "A")] (.str "A")
    ?_ ?_ rfl rfl
  · intro pr hpr
    simp only [List.mem_cons, List.not_mem_nil, or_false] at hpr
    rcases hpr with rfl | rfl | rfl <;> rfl
  · intro pr hpr
    simp only [List.mem_cons, List.not_mem_nil, or_false] at hpr
    rcases hpr with rfl | rfl | rfl <;>
      first
      | exact ⟨[("name", .str "A")], rfl, by simp,
          by intro x hx; simp only [List.mem_singleton, Prod.mk.injEq] at hx; rw [hx.2]; rfl⟩
      | exact ⟨[("name", .str "")], rfl, by simp,
          by intro x hx; simp only [List.mem_singleton, Prod.mk.injEq] at hx; rw [hx.2]; rfl⟩

/-- Counterexample for C2: at nested depth the merge is an unconditional
overwrite - merging page `{"s": {"k": "x"}}` then page `{"s": {"k": ""}}`
replaces the non-empty `"x"` with the empty string (which the cleanup pass
then drops entirely), instead of keeping `"x"` as the claim states. -/
theorem deep_merge_empty_overwrites_cex :
    aggregatePageResults
      [⟨true, .obj [("s", .obj [("k", .str "x")])], 1⟩,
       ⟨true, .obj [("s", .obj [("k", .str "")])], 1⟩]
      = .ok [("s", .obj [])]
    ∧ Value.obj [] ≠ Value.obj [("k", Value.str "x")] := by
  constructor
  · simp [aggregatePageResults, aggregateLoop, mergePageData, mergeSection, lookupV, setKey,
      deepMerge, deepMergeEntry, cleanAggregatedData, cleanDict, truthy, String.isEmpty]
  · simp

/-- Claim C2 (amended): in `_deep_merge` (every nesting depth below the
top level) the otherwise case - key absent, or neither both-object,
both-array, array/object, nor object/array - overwrites with the incoming
value unconditionally, even when the incoming value is empty/falsy and the
existing value is non-empty; the empty/falsy exception exists only for
top-level scalar sections in `_aggregate_page_results`, where a falsy
incoming scalar never replaces an existing truthy value. -/
theorem merge_otherwise_overwrite_rules :
    (∀ (t : Obj) (k : String) (v : Value),
       (lookupV t k = none ∨ ∃ cur, lookupV t k = some cur ∧ specialPair cur v = false) →
       lookupV (deepMergeEntry t k v) k = some v)
    ∧ (∀ (acc : Obj) (sec : String) (v cur : Value), isScalar v = true →
       truthy v = false → lookupV acc sec = some cur → truthy cur = true →
       mergeSection acc sec v = acc) := by
  constructor
  · intro t k v h
    rcases h with hl | ⟨cur, hl, hsp⟩
    · cases v <;> simp [deepMergeEntry, hl, lookupV_setKey_self]
    · cases cur <;> cases v <;>
        simp_all [specialPair, deepMergeEntry, lookupV_setKey_self]
  · intro acc sec v cur hv hf hl ht
    cases v <;> simp_all [mergeSection, isScalar]

/-- Witness for C2 (amended): the falsy string overwrites at nested depth;
a falsy scalar is kept out at top level. -/
theorem merge_otherwise_overwrite_rules_witness :
    lookupV (deepMergeEntry [("k", Value.str "x")] "k" (Value.str "")) "k"
      = some (Value.str "")
    ∧ mergeSection [("s", Value.str "x")] "s" (Value.str "")
      = [("s", Value.str "x")] :=
  ⟨merge_otherwise_overwrite_rules.1 _ "k" _ (Or.inr ⟨Value.str "x", rfl, rfl⟩),
   merge_otherwise_overwrite_rules.2 _ "s" _ (Value.str "x") rfl rfl rfl rfl⟩

/-- Counterexample for C3: at top level, merging page `{"s": [1]}` then page
`{"s": {"k": 2}}` does not append the object to the array - `_deep_merge`
raises on the list target, the exception is caught, and the section is left
as `[1]`, not `[1, {"k": 2}]` as the claim states. -/
theorem toplevel_array_object_no_append_cex :
    aggregatePageResults
      [⟨true, .obj [("s", .arr [.int 1])], 1⟩,
       ⟨true, .obj [("s", .obj [("k", .int 2)])], 1⟩]
      = .ok [("s", .arr [.int 1])]
    ∧ Value.arr [.int 1] ≠ Value.arr [.int 1, .obj [("k", .int 2)]] :=
  ⟨rfl, by simp⟩

/-- Claim C3 (amended): the append rule (existing array + incoming object)
and the keep-existing no-op (existing object + incoming array) hold for
nested keys inside `_deep_merge`; at the top level of
`_aggregate_page_results` both mixed cases are no-ops that keep the
existing section value unchanged. -/
theorem mixed_type_merge_rules :
    (∀ (t : Obj) (k : String) (l : List Value) (d : Obj),
       lookupV t k = some (.arr l) →
       lookupV (deepMergeEntry t k (.obj d)) k = some (.arr (l ++ [.obj d])))
    ∧ (∀ (t : Obj) (k : String) (td : Obj) (sl : List Value),
       lookupV t k = some (.obj td) → deepMergeEntry t k (.arr sl) = t)
    ∧ (∀ (acc : Obj) (sec : String) (l : List Value) (d : Obj),
       lookupV acc sec = some (.arr l) → mergeSection acc sec (.obj d) = acc)
    ∧ (∀ (acc : Obj) (sec : String) (td : Obj) (sl : List Value),
       lookupV acc sec = some (.obj td) → mergeSection acc sec (.arr sl) = acc) := by
  refine ⟨?_, ?_, ?_, ?_⟩
  · intro t k l d hl
    simp [deepMergeEntry, hl, lookupV_setKey_self]
  · intro t k td sl hl
    simp [deepMergeEntry, hl]
  · intro acc sec l d hl
    simp [mergeSection, hl]
  · intro acc sec td sl hl
    simp [mergeSection, hl]

/-- Witness for C3 (amended): concrete instances of all four rules. -/
theorem mixed_type_merge_rules_witness :
    lookupV (deepMergeEntry [("k", Value.arr [.int 1])] "k" (Value.obj [("a", .int 2)])) "k"
      = some (Value.arr [.int 1, .obj [("a", .int 2)]])
    ∧ deepMergeEntry [("k", Value.obj [])] "k" (Value.arr [.int 1]) = [("k", Value.obj [])]
    ∧ mergeSection [("s", Value.arr [.int 1])] "s" (Value.obj [("a", .int 2)])
      = [("s", Value.arr [.int 1])]
    ∧ mergeSection [("s", Value.obj [])] "s" (Value.arr [.int 1]) = [("s", Value.obj [])] :=
  ⟨mixed_type_merge_rules.1 [("k", Value.arr [.int 1])] "k" [.int 1] [("a", .int 2)] rfl,
   mixed_type_merge_rules.2.1 [("k", Value.obj [])] "k" [] [.int 1] rfl,
   mixed_type_merge_rules.2.2.1 [("s", Value.arr [.int 1])] "s" [.int 1] [("a", .int 2)] rfl,
   mixed_type_merge_rules.2.2.2 [("s", Value.obj [])] "s" [] [.int 1] rfl⟩

theorem aggregateLoop_skip_failed (l1 l2 : List PageResult) (pr : PageResult)
    (h : pr.success = false) (acc : Obj) :
    aggregateLoop acc (l1 ++ pr :: l2) = aggregateLoop acc (l1 ++ l2) := by
  induction l1 generalizing acc with
  | nil => simp [aggregateLoop, h]
  | cons a t ih =>
    simp only [List.cons_append, aggregateLoop]
    by_cases ha : a.success
    · cases a.data <;> simp [ha, ih]
    · simp [ha, ih]

theorem aggregatePageResults_skip_failed (l1 l2 : List PageResult) (pr : PageResult)
    (h : pr.success = false) :
    aggregatePageResults (l1 ++ pr :: l2) = aggregatePageResults (l1 ++ l2) := by
  unfold aggregatePageResults
  rw [aggregateLoop_skip_failed l1 l2 pr h]

/-- Counterexample for C4: a document whose single page parses cleanly
(success, confidence 1.0) but whose `items` array contains list elements
aborts the whole document: `_deduplicate_list` raises `TypeError` on the
unhashable list element, nothing below the top-level handler catches it, and
`extract_page_by_page` returns `success: False` with no aggregated result -
an abort that is neither file-not-found nor unsupported-format. -/
theorem pipeline_abort_on_unhashable_cex :
    extractFromPage (.ok "\x7b\"items\": [[1,2],[1,2]]\x7d")
      = ⟨true, .obj [("items", .arr [.arr [.int 1, .int 2], .arr [.int 1, .int 2]])], 1⟩
    ∧ extractPageByPage [.ok "\x7b\"items\": [[1,2],[1,2]]\x7d"] = ⟨false, none⟩ :=
  ⟨rfl, rfl⟩

/-- Claim C4 (amended): no exception crosses the pipeline boundary (the
top-level handler converts any escaped exception into a `success: false`
record), per-page service failures are skipped without affecting the rest,
and a partially failing document still yields a best-effort aggregated
result whenever the aggregation/cleanup pass itself succeeds; but besides
file-not-found and unsupported-format, the document also aborts (with
`success: false` and no aggregated data) when aggregation or deduplication
raises - e.g. on non-object page JSON or unhashable array elements. -/
theorem extract_page_by_page_outcomes :
    (∀ (rs : List ServiceResponse) (agg : Obj),
       aggregatePageResults (rs.map extractFromPage) = .ok agg →
       extractPageByPage rs = ⟨true, some agg⟩)
    ∧ (∀ (rs : List ServiceResponse) (e : Unit),
       aggregatePageResults (rs.map extractFromPage) = .error e →
       extractPageByPage rs = ⟨false, none⟩)
    ∧ (∀ (rs1 rs2 : List ServiceResponse) (msg : String),
       extractPageByPage (rs1 ++ .exn msg :: rs2) = extractPageByPage (rs1 ++ rs2)) := by
  refine ⟨?_, ?_, ?_⟩
  · intro rs agg h
    simp [extractPageByPage, h]
  · intro rs e h
    simp [extractPageByPage, h]
  · intro rs1 rs2 msg
    unfold extractPageByPage
    rw [List.map_append, List.map_cons, List.map_append,
      aggregatePageResults_skip_failed (rs1.map extractFromPage)
        (rs2.map extractFromPage) (extractFromPage (.exn msg)) rfl]

/-- Witness for C4 (amended): one page fails at the service call, the other
parses; the document still succeeds with the surviving page's data. -/
theorem extract_page_by_page_outcomes_witness :
    extractPageByPage [.exn "network", .ok "\x7b\"a\": 1\x7d"]
      = ⟨true, some [("a", Value.int 1)]⟩ :=
  extract_page_by_page_outcomes.1 [.exn "network", .ok "\x7b\"a\": 1\x7d"]
    [("a", Value.int 1)] rfl

theorem count_stripTrailingCommas (cs : List Char) (c : Char) (h : c ≠ ',') :
    (stripTrailingCommas cs).count c = cs.count c := by
  induction cs with
  | nil => rfl
  | cons a rest ih =>
    by_cases ha : a = ',' ∧ followedByClose rest
    · obtain ⟨ha1, ha2⟩ := ha
      subst ha1
      simp only [stripTrailingCommas, ha2, and_true, if_true, ih]
      rw [List.count_cons]
      simp [Ne.symm h]
    · simp only [stripTrailingCommas, if_neg ha]
      rw [List.count_cons, List.count_cons, ih]

/-- Claim C5: `_fix_incomplete_json` never throws, and on every input it
strips commas that immediately precede (through optional whitespace) a
closing brace or bracket, counts brace and bracket characters over the whole
text, and appends exactly the (nonnegative) shortfall of closing brackets
followed by the shortfall of closing braces; on the truncated input
`{"a": [1, 2` it appends `]` then `}`. -/
theorem fix_incomplete_json_spec :
    (∀ s : String, fixIncompleteJson s =
      String.mk (stripTrailingCommas s.data
        ++ List.replicate (s.data.count '[' - s.data.count ']') ']'
        ++ List.replicate (s.data.count lbrace - s.data.count rbrace) rbrace))
    ∧ fixIncompleteJson "\x7b\"a\": [1, 2" = "\x7b\"a\": [1, 2]\x7d" := by
  constructor
  · intro s
    unfold fixIncompleteJson
    dsimp only
    rw [count_stripTrailingCommas s.data lbrace (by decide),
      count_stripTrailingCommas s.data rbrace (by decide),
      count_stripTrailingCommas s.data '[' (by decide),
      count_stripTrailingCommas s.data ']' (by decide)]
    split
    · have e1 : ((s.data.count '[' : Int) - (s.data.count ']' : Int)).toNat
          = s.data.count '[' - s.data.count ']' := by omega
      have e2 : ((s.data.count lbrace : Int) - (s.data.count rbrace : Int)).toNat
          = s.data.count lbrace - s.data.count rbrace := by omega
      rw [e1, e2]
    · rename_i hfalse
      push_neg at hfalse
      have h1 : s.data.count lbrace - s.data.count rbrace = 0 := by omega
      have h2 : s.data.count '[' - s.data.count ']' = 0 := by omega
      rw [h1, h2]
      simp
  · rfl

/-- Counterexample for C6: the valid JSON document `",]"` (a string literal
containing a comma and a bracket) parses to the string `,]`, but the
repairer strips the comma inside the literal, and the repaired text parses
to the different string `]`. -/
theorem repair_changes_valid_json_cex :
    jsonParse "\",]\"" = some (.str ",]")
    ∧ fixIncompleteJson "\",]\"" = "\"]\""
    ∧ jsonParse (fixIncompleteJson "\",]\"") = some (.str "]")
    ∧ Value.str ",]" ≠ Value.str "]" :=
  ⟨rfl, rfl, rfl, by simp⟩

/-- Claim C6 (amended): repair is a (textual, hence semantic) no-op on
already-valid JSON provided the raw text contains no comma followed by
optional whitespace and a closing brace/bracket (such sequences can occur
only inside string literals of valid JSON, where the repairer wrongly
strips them) and its brace and bracket character counts are balanced
(string literals containing unbalanced brace/bracket characters would make
the repairer append spurious closers). -/
theorem repair_noop_on_clean_valid_json (s : String) (v : Value)
    (hparse : jsonParse s = some v)
    (hstrip : stripTrailingCommas s.data = s.data)
    (hbrace : s.data.count lbrace = s.data.count rbrace)
    (hbracket : s.data.count '[' = s.data.count ']') :
    fixIncompleteJson s = s ∧ jsonParse (fixIncompleteJson s) = some v := by
  have hfix : fixIncompleteJson s = s := by
    unfold fixIncompleteJson
    dsimp only
    rw [hstrip, hbrace, hbracket]
    simp
  exact ⟨hfix, by rw [hfix, hparse]⟩

/-- Witness for C6 (amended): a clean valid JSON object passes through the
repairer unchanged. -/
theorem repair_noop_on_clean_valid_json_witness :
    fixIncompleteJson "\x7b\"a\": 1\x7d" = "\x7b\"a\": 1\x7d"
    ∧ jsonParse (fixIncompleteJson "\x7b\"a\": 1\x7d")
      = some (.obj [("a", Value.int 1)]) :=
  repair_noop_on_clean_valid_json "\x7b\"a\": 1\x7d" (.obj [("a", Value.int 1)])
    rfl rfl rfl rfl

/-- Claim C7: per-page classification of the raw service response - parse
succeeds: success with confidence 1.0; parse fails but the repaired string
parses: success with confidence 0.9; repair also fails: the raw text is
wrapped as `{"raw_extraction": <text>}` with success and confidence 0.8;
an exception escaping the service call yields `success: false` with
confidence 0 and that page contributes nothing to the aggregated document. -/
theorem page_response_classification :
    (∀ (raw : String) (v : Value), jsonParse raw = some v →
       extractFromPage (.ok raw) = ⟨true, v, 1⟩)
    ∧ (∀ (raw : String) (v : Value), jsonParse raw = none →
       jsonParse (fixIncompleteJson raw) = some v →
       extractFromPage (.ok raw) = ⟨true, v, 9/10⟩)
    ∧ (∀ raw : String, jsonParse raw = none →
       jsonParse (fixIncompleteJson raw) = none →
       extractFromPage (.ok raw) = ⟨true, .obj [("raw_extraction", .str raw)], 8/10⟩)
    ∧ (∀ msg : String, extractFromPage (.exn msg) = ⟨false, .obj [], 0⟩)
    ∧ (∀ (msg : String) (l1 l2 : List PageResult),
       aggregatePageResults (l1 ++ extractFromPage (.exn msg) :: l2)
         = aggregatePageResults (l1 ++ l2)) := by
  refine ⟨?_, ?_, ?_, fun _ => rfl, ?_⟩
  · intro raw v h
    simp [extractFromPage, h]
  · intro raw v h1 h2
    have hne : (fixIncompleteJson raw).isEmpty = false := by
      cases he : (fixIncompleteJson raw).isEmpty with
      | false => rfl
      | true =>
        rw [(String.isEmpty_iff _).mp he] at h2
        cases h2
    simp [extractFromPage, h1, hne, h2]
  · intro raw h1 h2
    cases he : (fixIncompleteJson raw).isEmpty with
    | false => simp [extractFromPage, h1, h2, he]
    | true => simp [extractFromPage, h1, h2, he]
  · intro msg l1 l2
    exact aggregatePageResults_skip_failed l1 l2 _ rfl

/-- Witness for C7: one input per classification branch. -/
theorem page_response_classification_witness :
    extractFromPage (.ok "\x7b\"a\": 1\x7d") = ⟨true, .obj [("a", .int 1)], 1⟩
    ∧ extractFromPage (.ok "[1") = ⟨true, .arr [.int 1], 9/10⟩
    ∧ extractFromPage (.ok "not json ]") = ⟨true, .obj [("raw_extraction", .str "not json ]")], 8/10⟩
    ∧ extractFromPage (.exn "transport") = ⟨false, .obj [], 0⟩
    ∧ aggregatePageResults [extractFromPage (.exn "transport")] = aggregatePageResults [] :=
  ⟨page_response_classification.1 "\x7b\"a\": 1\x7d" (.obj [("a", .int 1)]) rfl,
   page_response_classification.2.1 "[1" (.arr [.int 1]) rfl rfl,
   page_response_classification.2.2.1 "not json ]" rfl rfl,
   page_response_classification.2.2.2.1 "transport",
   page_response_classification.2.2.2.2 "transport" [] []⟩

theorem memSeen_cons (k x : Value) (seen : List Value) :
    memSeen (k :: seen) x = (pyEq k x || memSeen seen x) := by
  simp [memSeen]

theorem pyEq_trans (a b c : Value) (h1 : pyEq a b = true) (h2 : pyEq b c = true) :
    pyEq a c = true := by
  cases a <;> cases b <;> cases c <;>
    simp_all [pyEq, Bool.or_eq_true, Bool.and_eq_true] <;>
    rcases h1 with ⟨h1a, h1b⟩ | ⟨h1a, h1b⟩ <;>
    rcases h2 with ⟨h2a, h2b⟩ | ⟨h2a, h2b⟩ <;>
    simp_all

theorem dedupAux_ok_props (xs : List Value) :
    ∀ (seen ys : List Value), dedupAux seen xs = .ok ys →
      (∀ y ∈ ys, isArr y = false ∧ memSeen seen (seenKey y) = false)
      ∧ ys.Pairwise (fun a b => pyEq (seenKey a) (seenKey b) = false) := by
  induction xs with
  | nil =>
    intro seen ys h
    simp only [dedupAux] at h
    cases h
    simp
  | cons x rest ih =>
    intro seen ys h
    cases hx : isArr x with
    | true => simp [dedupAux, hx] at h
    | false =>
      cases hm : memSeen seen (seenKey x) with
      | true =>
        simp only [dedupAux, hx, hm, if_false, if_true] at h
        exact ih seen ys h
      | false =>
        simp only [dedupAux, hx, hm, if_false, if_true] at h
        cases hrec : dedupAux (seenKey x :: seen) rest with
        | error e => rw [hrec] at h; cases h
        | ok ys' =>
          rw [hrec] at h
          simp only [Except.map] at h
          cases h
          obtain ⟨hmem, hpw⟩ := ih (seenKey x :: seen) ys' hrec
          refine ⟨?_, ?_⟩
          · intro y hy
            rcases List.mem_cons.mp hy with rfl | hy'
            · exact ⟨hx, hm⟩
            · have := hmem y hy'
              rw [memSeen_cons] at this
              exact ⟨this.1, (Bool.or_eq_false_iff.mp this.2).2⟩
          · refine List.Pairwise.cons ?_ hpw
            intro y hy
            have := (hmem y hy).2
            rw [memSeen_cons] at this
            exact (Bool.or_eq_false_iff.mp this).1

theorem dedupAux_fixed (ys : List Value) :
    ∀ seen : List Value,
      (∀ y ∈ ys, isArr y = false ∧ memSeen seen (seenKey y) = false) →
      ys.Pairwise (fun a b => pyEq (seenKey a) (seenKey b) = false) →
      dedupAux seen ys = .ok ys := by
  induction ys with
  | nil => intro seen _ _; rfl
  | cons y rest ih
  =>
    intro seen hmem hpw
    have hy := hmem y (by simp)
    simp only [dedupAux, hy.1, hy.2, if_false]
    rw [ih (seenKey y :: seen) ?_ hpw.of_cons]
    · rfl
    · intro z hz
      refine ⟨(hmem z (List.mem_cons_of_mem _ hz)).1, ?_⟩
      rw [memSeen_cons]
      have h1 := (List.pairwise_cons.mp hpw).1 z hz
      have h2 := (hmem z (List.mem_cons_of_mem _ hz)).2
      simp [h1, h2]

/-- Claim C8: deduplication is idempotent - re-running `_deduplicate_list`
on any of its (non-raising) outputs returns the identical list. -/
theorem deduplicate_idempotent (xs ys : List Value)
    (h : deduplicateList xs = .ok ys) : deduplicateList ys = .ok ys := by
  obtain ⟨hmem, hpw⟩ := dedupAux_ok_props xs [] ys h
  exact dedupAux_fixed ys [] hmem hpw

/-- Witness for C8: deduplicating `[1, 1, "a"]` twice. -/
theorem deduplicate_idempotent_witness :
    deduplicateList [Value.int 1, Value.int 1, Value.str "a"]
      = .ok [Value.int 1, Value.str "a"]
    ∧ deduplicateList [Value.int 1, Value.str "a"]
      = .ok [Value.int 1, Value.str "a"] :=
  ⟨rfl, deduplicate_idempotent [Value.int 1, Value.int 1, Value.str "a"] _ rfl⟩

theorem dedupAux_skip_dup (l1 : List Value) :
    ∀ (seen : List Value) (x : Value) (l2 : List Value), isArr x = false →
      (memSeen seen (seenKey x) = true
       ∨ ∃ y ∈ l1, isArr y = false ∧ pyEq (seenKey y) (seenKey x) = true) →
      dedupAux seen (l1 ++ x :: l2) = dedupAux seen (l1 ++ l2) := by
  induction l1 with
  | nil =>
    intro seen x l2 hx h
    rcases h with h | ⟨y, hy, _⟩
    · simp [dedupAux, hx, h]
    · simp at hy
  | cons a t ih =>
    intro seen x l2 hx h
    cases ha : isArr a with
    | true => simp [dedupAux, ha]
    | false =>
      cases hm : memSeen seen (seenKey a) with
      | true =>
        simp only [List.cons_append, dedupAux, ha, hm, if_false, if_true, List.append_eq]
        apply ih seen x l2 hx
        rcases h with h | ⟨y, hy, hya, hyx⟩
        · exact Or.inl h
        · rcases List.mem_cons.mp hy with rfl | hyt
          · left
            simp only [memSeen, List.any_eq_true] at hm ⊢
            obtain ⟨s, hs, hps⟩ := hm
            exact ⟨s, hs, pyEq_trans s (seenKey y) (seenKey x) hps hyx⟩
          · exact Or.inr ⟨y, hyt, hya, hyx⟩
      | false =>
        have hside : (memSeen (seenKey a :: seen) (seenKey x) = true
            ∨ ∃ y ∈ t, isArr y = false ∧ pyEq (seenKey y) (seenKey x) = true) := by
          rcases h with h | ⟨y, hy, hya, hyx⟩
          · rw [memSeen_cons]
            simp [h]
          · rcases List.mem_cons.mp hy with rfl | hyt
            · rw [memSeen_cons]
              simp [hyx]
            · exact Or.inr ⟨y, hyt, hya, hyx⟩
        simp only [List.cons_append, dedupAux, ha, hm, if_false, if_true, List.append_eq]
        rw [ih (seenKey a :: seen) x l2 hx hside]
        simp

/-- Claim C10: the deduplication pass keys dicts by their canonical
`json.dumps` serialization and everything else by its own value in one
shared seen-set, so a string element equal character-for-character to a
dict's canonical serialization is removed as a duplicate of that dict
(and vice versa). -/
theorem dedup_cross_type_duplicates (l1 l2 : List Value) (d : Obj) (s : String)
    (hs : s = dumpVal (.obj d)) :
    (Value.obj d ∈ l1 →
       deduplicateList (l1 ++ Value.str s :: l2) = deduplicateList (l1 ++ l2))
    ∧ (Value.str s ∈ l1 →
       deduplicateList (l1 ++ Value.obj d :: l2) = deduplicateList (l1 ++ l2)) := by
  subst hs
  constructor
  · intro hmem
    apply dedupAux_skip_dup l1 [] (Value.str (dumpVal (.obj d))) l2 rfl
    exact Or.inr ⟨Value.obj d, hmem, rfl, by simp [seenKey, pyEq]⟩
  · intro hmem
    apply dedupAux_skip_dup l1 [] (Value.obj d) l2 rfl
    exact Or.inr ⟨Value.str (dumpVal (.obj d)), hmem, rfl, by simp [seenKey, pyEq]⟩

/-- Witness for C10: the string rendering of the empty dict is removed as a
duplicate of the dict itself. -/
theorem dedup_cross_type_duplicates_witness :
    deduplicateList [Value.obj [], Value.str (dumpVal (.obj [])), Value.int 5]
      = deduplicateList [Value.obj [], Value.int 5] :=
  (dedup_cross_type_duplicates [Value.obj []] [Value.int 5] [] (dumpVal (.obj [])) rfl).1
    (by simp)

theorem imgScanPages_all_true (imgs : List Bool) :
    ∀ i, (∀ b ∈ imgs, b = true) → imgScanPages i imgs = List.range' (i + 1) imgs.length := by
  induction imgs with
  | nil => intro i _; rfl
  | cons b rest ih =>
    intro i h
    have hb : b = true := h b (by simp)
    subst hb
    simp only [imgScanPages, if_true, List.length_cons]
    rw [List.range'_succ, ih (i + 1) (fun x hx => h x (List.mem_cons_of_mem _ hx))]

theorem cssScanPages_contiguous (css : List Bool) :
    ∀ acc : List Nat, acc = List.range' 1 acc.length →
      cssScanPages acc css = List.range' 1 (acc.length + css.count true) := by
  induction css with
  | nil => intro acc h; simpa [cssScanPages] using h
  | cons b rest ih =>
    intro acc h
    cases b with
    | true =>
      simp only [cssScanPages, if_true]
      have hlen : (acc ++ [acc.length + 1]).length = acc.length + 1 := by simp
      have hacc : acc ++ [acc.length + 1]
          = List.range' 1 (acc ++ [acc.length + 1]).length := by
        rw [hlen, List.range'_concat]
        have h2 : 1 + 1 * acc.length = acc.length + 1 := by omega
        rw [h2, ← h]
      rw [ih _ hacc, hlen]
      have hc : List.count true (true :: rest) = List.count true rest + 1 := by
        simp [List.count_cons]
      rw [hc]
      congr 1
      omega
    | false =>
      simp only [cssScanPages, if_false]
      have hc : List.count true (false :: rest) = List.count true rest := by
        simp [List.count_cons]
      rw [hc, ih acc h]
      simp

/-- Counterexample for C9: an HTML document whose first `<img>` base64 match
fails to decode and whose second succeeds yields the single page number `2` -
the `<img>` pass numbers by `enumerate` index, so a failed match leaves a
gap and the numbering is not the contiguous `[1]` the claim requires. -/
theorem html_page_numbers_gap_cex :
    htmlPageNumbers [false, true] [] = [2]
    ∧ htmlPageNumbers [false, true] []
      ≠ List.range' 1 (htmlPageNumbers [false, true] []).length := by
  exact ⟨rfl, by decide⟩

/-- Claim C9 (amended): page numbers are the contiguous 1-based sequence
`1..n` for the PDF adapter (both the render path and the fallback path) and
the image adapter always, and for the HTML adapter whenever every `<img>`
base64 match decodes successfully (CSS background matches are numbered by
the accumulated page count, so their failures never break contiguity);
a failed `<img>` match, however, leaves a gap because that pass numbers
pages by its `enumerate` index. -/
theorem adapter_page_numbers :
    (∀ n, pdfPageNumbers n = List.range' 1 n)
    ∧ imagePageNumbers = List.range' 1 1
    ∧ (∀ (imgs css : List Bool), (∀ b ∈ imgs, b = true) →
       htmlPageNumbers imgs css = List.range' 1 (imgs.length + css.count true)) := by
  refine ⟨?_, rfl, ?_⟩
  · intro n
    simp [pdfPageNumbers, List.range'_eq_map_range, Nat.add_comm]
  · intro imgs css h
    unfold htmlPageNumbers
    rw [imgScanPages_all_true imgs 0 h]
    have hc := cssScanPages_contiguous css (List.range' (0 + 1) imgs.length)
      (by simp [List.length_range'])
    rw [hc]
    congr 1
    simp [List.length_range']

/-- Witness for C9 (amended): a 3-page PDF and an HTML document with one
`<img>` page and one CSS page. -/
theorem adapter_page_numbers_witness :
    pdfPageNumbers 3 = List.range' 1 3
    ∧ htmlPageNumbers [true] [true] = List.range' 1 2 := by
  refine ⟨adapter_page_numbers.1 3, ?_⟩
  have h := adapter_page_numbers.2.2 [true] [true] (by simp)
  simpa using h

end OCRPlus
